import Mathlib

/-!
Verification development for the SQL-to-MIR lowering core
(src/src/controller/sql/mir/mod.rs of the noria repository).

The data model and the operations below are a shallow embedding of that
source file.  Machine integers (usize, i64) are modelled as Nat/Int; the
HashMaps of the converter state are modelled as function maps; Rust code
that can panic (assert!, unwrap, unimplemented!, indexing) is modelled
with Option, where `none` stands for the fatal error.  Interior-mutable
back references (a node's `children` list, its `flow_node` slot) are not
observable by any modelled operation's result and are omitted; `MirNodeRef`
handles are modelled as node values.

External types consumed through the narrow interfaces of the spec (nom_sql
AST types, DataType, the query graph) are modelled from the spec where the
source of this repository does not define them; each such definition is
marked "Modelled from the spec".
-/

namespace NoriaMir

/-- Modelled from the spec (section 6.1): an aggregate/scalar function
expression attached to a column.  No modelled operation inspects its
argument columns, so they are elided; the constructor tags mirror
nom_sql::FunctionExpression. -/
inductive FunctionExpression where
  | Sum
  | Count
  | CountStar
  | Max
  | Min
  | GroupConcat (separator : String)
deriving DecidableEq, Repr

/-- Modelled from the spec (section 3.1): a column reference with a name,
an optional table, an optional alias and an optional function. -/
structure Column where
  name : String
  table : Option String
  alias' : Option String
  function : Option FunctionExpression
deriving DecidableEq, Repr

/-- Modelled from the spec (section 3.1): two columns compare equal on
(table, name); the alias is cosmetic.  This is nom_sql Column's PartialEq,
used by Vec::contains and == in the source. -/
def columnEq (a b : Column) : Bool :=
  a.name == b.name && a.table == b.table

/-- Modelled from the spec (section 3.2): a column declaration; the SQL
type and the constraint flags are opaque strings, compared structurally as
in nom_sql. -/
structure ColumnSpecification where
  column : Column
  sql_type : String
  constraints : List String
deriving DecidableEq, Repr

/-- PartialEq of ColumnSpecification: structural, except that the column
field compares by (table, name). -/
def columnSpecEq (a b : ColumnSpecification) : Bool :=
  columnEq a.column b.column && a.sql_type == b.sql_type && a.constraints == b.constraints

/-- Vec equality on column specifications (schema == cols in the source). -/
def columnSpecListEq (a b : List ColumnSpecification) : Bool :=
  a.length == b.length && (a.zip b).all fun p => columnSpecEq p.1 p.2

/-- Modelled from the spec (section 6.1): nom_sql literals; only the
variants the source matches on are populated. -/
inductive Literal where
  | Integer (i : Int)
  | Str (s : String)
deriving DecidableEq, Repr

/-- Modelled from the spec: the dataflow value type; DataType::from on an
i64 yields an Int, on a String a Text. -/
inductive DataType where
  | Int (i : Int)
  | Text (s : String)
deriving DecidableEq, Repr

/-- Modelled from the spec: DataType::from(Literal). -/
def DataType.fromLiteral : Literal → DataType
  | .Integer i => .Int i
  | .Str s => .Text s

/-- Modelled from the spec (section 6.1): nom_sql comparison/logical
operators. -/
inductive Operator where
  | Equal
  | NotEqual
  | Less
  | LessOrEqual
  | Greater
  | GreaterOrEqual
  | In
  | Like
  | And
  | Or
deriving DecidableEq, Repr

/-- Filter predicate for one column (dataflow::ops::filter::FilterCondition). -/
inductive FilterCondition where
  | Equality (op : Operator) (value : DataType)
  | In (values : List DataType)
deriving DecidableEq, Repr

/-- Modelled from the spec (section 6.1): the base cases of a condition
expression.  NestedSelect stands for the nested-selection shape the source
refuses with unimplemented!. -/
inductive ConditionBase where
  | Field (c : Column)
  | Literal (l : Literal)
  | LiteralList (ls : List Literal)
  | NestedSelect
deriving DecidableEq, Repr

/-- Modelled from the spec (section 6.1): nom_sql condition expressions.
The Box<ConditionTree> of the comparison and logical variants is inlined
as (operator, left, right). -/
inductive ConditionExpression where
  | comparisonOp (op : Operator) (left right : ConditionExpression)
  | logicalOp (op : Operator) (left right : ConditionExpression)
  | negationOp (e : ConditionExpression)
  | base (b : ConditionBase)
deriving DecidableEq, Repr

/-- A condition tree as passed to to_conditions and make_join_node: an
operator with two condition-expression operands. -/
structure ConditionTree where
  operator : Operator
  left : ConditionExpression
  right : ConditionExpression
deriving DecidableEq, Repr

/-- Modelled from the spec (section 6.1): ascending or descending order. -/
inductive OrderType where
  | Asc
  | Desc
deriving DecidableEq, Repr

/-- Modelled from the spec (section 6.1): an ORDER BY clause. -/
structure OrderClause where
  columns : List (Column × OrderType)
deriving DecidableEq, Repr

/-- Modelled from the spec (section 6.1): a LIMIT clause; limit and offset
are u64 values, modelled as Nat. -/
structure LimitClause where
  limit : Nat
  offset : Nat
deriving DecidableEq, Repr

/-- Modelled from the spec (section 6.1): a table key declaration; only
PrimaryKey is distinguished by the source, every other key kind is
collapsed into OtherKey. -/
inductive TableKey where
  | PrimaryKey (cols : List Column)
  | OtherKey (cols : List Column)
deriving DecidableEq, Repr

/-- Modelled from the spec (section 4.11): the compound-select operator;
only Union is supported by the source. -/
inductive CompoundSelectOperator where
  | Union
  | Other
deriving DecidableEq, Repr

/-- Modelled from the spec (section 6.1): an arithmetic expression in an
output column.  No modelled operation inspects it. -/
inductive ArithmeticExpression where
  | opaqueExpr
deriving DecidableEq, Repr

/-- Aggregation kinds (dataflow::ops::grouped::aggregate::Aggregation). -/
inductive Aggregation where
  | SUM
  | COUNT
deriving DecidableEq, Repr

/-- Extremum kinds (dataflow::ops::grouped::extremum::Extremum). -/
inductive Extremum where
  | MAX
  | MIN
deriving DecidableEq, Repr

/-- mir::node::GroupedNodeType. -/
inductive GroupedNodeType where
  | Aggregation (k : Aggregation)
  | Extremum (k : Extremum)
  | GroupConcat (separator : String)
deriving DecidableEq, Repr

/-- dataflow::ops::join::JoinType. -/
inductive JoinType where
  | Inner
  | Left
deriving DecidableEq, Repr

/-- Modelled from the spec (section 3.5): the tagged node variant, with the
node type as a parameter so that it can be nested inside MirNode.  The
Base payload stores (spec, optional default) pairs as the source's
column_specs does; adapted_over records {prior node, added, removed}. -/
inductive MirNodeTypeF (α : Type) where
  | Base (column_specs : List (ColumnSpecification × Option Nat)) (keys : List Column)
      (transactional : Bool)
      (adapted_over : Option (α × List ColumnSpecification × List ColumnSpecification))
  | Identity
  | Filter (conditions : List (Option FilterCondition))
  | Project (emit : List Column) (literals : List (String × DataType))
      (arithmetic : List (String × ArithmeticExpression))
  | Join (on_left on_right project : List Column)
  | LeftJoin (on_left on_right project : List Column)
  | Union (emit : List (List Column))
  | Aggregation (on' : Column) (group_by : List Column) (kind : Aggregation)
  | Extremum (on' : Column) (group_by : List Column) (kind : Extremum)
  | GroupConcat (on' : Column) (separator : String)
  | TopK (order : Option (List (Column × OrderType))) (group_by : List Column)
      (k : Nat) (offset : Nat)
  | Leaf (node : α) (keys : List Column)
  | Reuse (node : α)

/-- Modelled from the spec (section 3.3): an MIR node with name, schema
version, ordered output columns, tagged variant and ancestor handles.
The children back-references and the flow_node slot are omitted (set only
by descendants / the downstream pass, never read by the modelled
operations). -/
inductive MirNode where
  | mk (name : String) (version : Nat) (columns : List Column)
      (inner : MirNodeTypeF MirNode) (ancestors : List MirNode)

abbrev MirNodeType := MirNodeTypeF MirNode

def MirNode.name : MirNode → String
  | .mk n _ _ _ _ => n

def MirNode.version : MirNode → Nat
  | .mk _ v _ _ _ => v

def MirNode.columns : MirNode → List Column
  | .mk _ _ cs _ _ => cs

def MirNode.inner : MirNode → MirNodeType
  | .mk _ _ _ i _ => i

def MirNode.ancestors : MirNode → List MirNode
  | .mk _ _ _ _ a => a

/-- A numeric tag for the node variant, used to tell nodes apart. -/
def MirNode.tag (n : MirNode) : Nat :=
  match n.inner with
  | .Base _ _ _ _ => 0
  | .Identity => 1
  | .Filter _ => 2
  | .Project _ _ _ => 3
  | .Join _ _ _ => 4
  | .LeftJoin _ _ _ => 5
  | .Union _ => 6
  | .Aggregation _ _ _ => 7
  | .Extremum _ _ _ => 8
  | .GroupConcat _ _ => 9
  | .TopK _ _ _ _ => 10
  | .Leaf _ _ => 11
  | .Reuse _ => 12

/-- Modelled from the spec (sections 3.3, 4.1, glossary): MirNode::reuse
wraps an existing handle in a Reuse node at the given schema version,
keeping the target's name and columns. -/
def MirNode.reuseOf (n : MirNode) (v : Nat) : MirNode :=
  .mk n.name v n.columns (.Reuse n) []

/-- Modelled from the spec (section 3.5): the column specifications of a
Base node; fatal on any other variant. -/
def MirNode.column_specifications (n : MirNode) :
    Option (List (ColumnSpecification × Option Nat)) :=
  match n.inner with
  | .Base specs _ _ _ => some specs
  | _ => none

/-- Modelled from the spec (section 3.4): a query fragment with a name,
one or more roots and exactly one leaf. -/
structure MirQuery where
  name : String
  roots : List MirNode
  leaf : MirNode

/-- Modelled from the spec (section 6.3): a universe identifier, a pair of
a user/group id and an optional parent group id. -/
abbrev UniverseId := String × Option String

/-- Modelled from the spec (section 6.1): an output column of the query
graph. -/
inductive OutputColumn where
  | Data (c : Column)
  | Arithmetic (name : String) (expression : ArithmeticExpression)
  | Literal (name : String) (value : Literal)
deriving DecidableEq, Repr

/-- Modelled from the spec (sections 6.1, 6.2): the slice of the query
graph the modelled driver code reads, namely its output columns and its
parameter columns. -/
structure QueryGraph where
  columns : List OutputColumn
  parameters : List Column
deriving DecidableEq, Repr

/-- Modelled from the spec (section 6.1): a CREATE TABLE statement. -/
structure CreateTableQuery where
  table : String
  fields : List ColumnSpecification
  keys : Option (List TableKey)
deriving DecidableEq, Repr

/-- Modelled from the spec (section 6.3): the SqlQuery shapes
named_base_to_mir matches on. -/
inductive SqlQuery where
  | CreateTable (ctq : CreateTableQuery)
  | Other
deriving DecidableEq, Repr

/-- The converter state (struct SqlToMirConverter, source lines 40-50).
HashMaps are modelled as function maps; the discarded logger and the
universe descriptor (only read by the unmodelled security collaborators)
are omitted. -/
structure SqlToMirConverter where
  base_schemas : String → Option (List (Nat × List ColumnSpecification))
  current : String → Option Nat
  nodes : String × Nat → Option MirNode
  schema_version : Nat

/-- HashMap::insert on a function map. -/
def mapInsert {α β : Type} [DecidableEq α] (m : α → Option β) (k : α) (v : β) :
    α → Option β :=
  fun k' => if k' = k then some v else m k'

/-- sanitize_leaf_column (source lines 31-38): set the table to the view
name, drop the function, and drop the alias when it equals the name. -/
def sanitize_leaf_column (c : Column) (view_name : String) : Column :=
  { c with table := some view_name, function := none,
           alias' := if c.alias' = some c.name then none else c.alias' }

/-- Modelled from the spec (sections 4.4, 9): MirNode::column_id_for_column
lives in the mir crate; it returns the position of the column in the
node's column list, fatally failing when the column is absent.  Columns
compare by (table, name). -/
def MirNode.column_id_for_column (n : MirNode) (c : Column) : Option Nat :=
  n.columns.findIdx? fun c2 => columnEq c2 c

/-- Iterator::rposition: index of the rightmost element satisfying p. -/
def rpositionIdx {α : Type} (p : α → Bool) (l : List α) : Option Nat :=
  match l.reverse.findIdx? p with
  | none => none
  | some i => some (l.length - 1 - i)

/-- The left-side / join-operand extraction (source lines 116-119 and
819-826): a condition expression must be a bare column reference, any
other shape is a fatal unimplemented shape. -/
def conditionField : ConditionExpression → Option Column
  | .base (.Field f) => some f
  | _ => none

/-- The right-hand-side translation of to_conditions (source lines
120-131): an integer or string literal becomes an equality condition, a
literal list a membership condition; everything else is a fatal
unimplemented shape. -/
def conditionRhsFilter (op : Operator) : ConditionExpression → Option FilterCondition
  | .base (.Literal (.Integer i)) => some (FilterCondition.Equality op (.Int i))
  | .base (.Literal (.Str s)) => some (FilterCondition.Equality op (.Text s))
  | .base (.LiteralList ll) => some (FilterCondition.In (ll.map DataType.fromLiteral))
  | _ => none

/-- to_conditions (source lines 107-154): translate one condition tree
into a per-column vector of optional filter conditions, aligned to the
ancestor's column positions.  The &mut columns parameter is modelled by
returning the updated column list alongside the filter vector. -/
def to_conditions (ct : ConditionTree) (columns : List Column) (n : MirNode) :
    Option (List (Option FilterCondition) × List Column) := do
  let l ← conditionField ct.left
  let f ← conditionRhsFilter ct.operator ct.right
  let absolute_column_ids ← columns.mapM fun c => n.column_id_for_column c
  let max_column_id ← absolute_column_ids.max?
  let num_columns := max columns.length (max_column_id + 1)
  let filters : List (Option FilterCondition) := List.replicate num_columns none
  match rpositionIdx (fun c => c.name == l.name) columns with
  | none => some (filters ++ [some f], columns ++ [l])
  | some pos =>
    match absolute_column_ids[pos]? with
    | none => none
    | some i => some (filters.set i (some f), columns)

/-- make_filter_node (source lines 657-675). -/
def make_filter_node (v : Nat) (name : String) (parent : MirNode) (cond : ConditionTree) :
    Option MirNode := do
  let fields := parent.columns
  let (filter, fields) ← to_conditions cond fields parent
  some (.mk name v fields (.Filter filter) [parent])

/-- The selected-column test of make_union_node (source lines 599-608): a
name is in the selected set exactly when some column of the first
ancestor's list carries it and every ancestor has a column of that name. -/
def unionSelected (ancestors : List MirNode) (ucols : List Column) (nm : String) : Bool :=
  ucols.any (fun c => c.name == nm) &&
    ancestors.all fun a => a.columns.any fun ac => ac.name == nm

/-- The size of the selected-name HashSet of make_union_node: the number
of distinct selected names. -/
def unionSelectedCount (ancestors : List MirNode) (ucols : List Column) : Nat :=
  ((ucols.map Column.name).dedup.filter (unionSelected ancestors ucols)).length

/-- The per-ancestor emit computation of make_union_node (source lines
610-620): walk the ancestor's columns in order, keeping a column when its
name is selected and no kept column carries the name yet. -/
def unionAncestorCols (sel : String → Bool) (cols : List Column) : List Column :=
  cols.foldl
    (fun acols ac =>
      if sel ac.name && (acols.find? fun c => ac.name == c.name).isNone
      then acols ++ [ac] else acols)
    []

/-- make_union_node (source lines 586-635). -/
def make_union_node (v : Nat) (name : String) (ancestors : List MirNode) : Option MirNode :=
  match ancestors with
  | [] => none
  | a0 :: rest =>
    if (a0 :: rest).length > 1 then
      let ucols := a0.columns
      let sel := unionSelected (a0 :: rest) ucols
      let emit := (a0 :: rest).map fun a => unionAncestorCols sel a.columns
      if emit.all (fun e => e.length == unionSelectedCount (a0 :: rest) ucols) then
        some (.mk name v (emit.headD []) (.Union emit) (a0 :: rest))
      else none
    else none

/-- make_union_from_same_base (source lines 637-655): a union over chains
built from the same parent; every ancestor's emit list is the given
column list. -/
def make_union_from_same_base (v : Nat) (name : String) (ancestors : List MirNode)
    (columns : List Column) : Option MirNode :=
  if ancestors.length > 1 then
    some (.mk name v columns (.Union (ancestors.map fun _ => columns)) ancestors)
  else none

/-- make_predicate_nodes (source lines 983-1050): lower a boolean condition
tree to a sequence of filter nodes; disjunctions close with a union over
the two chain tails.  Negation and dangling base predicates are
unreachable panics. -/
def make_predicate_nodes (v : Nat) (name : String) (parent : MirNode)
    (ce : ConditionExpression) (nc : Nat) : Option (List MirNode) :=
  match ce with
  | .logicalOp op cl cr =>
    match op with
    | .And => do
      let left ← make_predicate_nodes v name parent cl nc
      let lastLeft ← left.getLast?
      let right ← make_predicate_nodes v name lastLeft cr (nc + left.length)
      some (left ++ right)
    | .Or => do
      let output_cols := parent.columns
      let left ← make_predicate_nodes v name parent cl nc
      let right ← make_predicate_nodes v name parent cr (nc + left.length)
      let last_left ← left.getLast?
      let last_right ← right.getLast?
      let union ← make_union_from_same_base v (name ++ "_un") [last_left, last_right]
        output_cols
      some (left ++ right ++ [union])
    | _ => none
  | .comparisonOp op cl cr => do
    let f ← make_filter_node v (name ++ "_f" ++ toString nc) parent ⟨op, cl, cr⟩
    some [f]
  | .negationOp _ => none
  | .base _ => none

/-- make_grouped_node (source lines 714-785): group-by columns followed by
the computed column, whose alias (when present) is promoted to its name. -/
def make_grouped_node (v : Nat) (name : String) (computed_col : Column)
    (over : MirNode × Column) (group_by : List Column) (node_type : GroupedNodeType) :
    MirNode :=
  let parent_node := over.1
  let over_col := over.2
  let computed_col := match computed_col.alias' with
    | none => computed_col
    | some a =>
      { name := a, alias' := none, table := computed_col.table,
        function := computed_col.function }
  let combined_columns := group_by ++ [computed_col]
  match node_type with
  | .Aggregation agg =>
    .mk name v combined_columns (.Aggregation over_col group_by agg) [parent_node]
  | .Extremum extr =>
    .mk name v combined_columns (.Extremum over_col group_by extr) [parent_node]
  | .GroupConcat sep =>
    .mk name v combined_columns (.GroupConcat over_col sep) [parent_node]

/-- make_join_node (source lines 787-852): equi-joins over single column
pairs only; output columns are the concatenation of the ancestors'
columns. -/
def make_join_node (v : Nat) (name : String) (jp : ConditionTree)
    (left_node right_node : MirNode) (kind : JoinType) : Option MirNode := do
  let fields := left_node.columns ++ right_node.columns
  if jp.operator == .Equal || jp.operator == .In then
    let l_col ← conditionField jp.left
    let r_col ← conditionField jp.right
    let inner := match kind with
      | .Inner => MirNodeTypeF.Join (α := MirNode) [l_col] [r_col] fields
      | .Left => MirNodeTypeF.LeftJoin (α := MirNode) [l_col] [r_col] fields
    some (.mk name v fields inner [left_node, right_node])
  else none

/-- make_project_node (source lines 870-948). -/
def make_project_node (v : Nat) (name : String) (parent_node : MirNode)
    (proj_cols : List Column) (arithmetic : List (String × ArithmeticExpression))
    (literals : List (String × DataType)) (is_leaf : Bool) : MirNode :=
  let names : List String := literals.map Prod.fst ++ arithmetic.map Prod.fst
  let fields :=
    (proj_cols.map fun c =>
      match c.alias' with
      | some a =>
        { name := a, table := if is_leaf then some name else c.table,
          alias' := none, function := c.function }
      | none => if is_leaf then sanitize_leaf_column c name else c) ++
    names.map fun n =>
      { name := n, alias' := none, table := some name, function := none }
  let emit_cols := proj_cols.map fun c => { c with alias' := none }
  .mk name v fields (.Project emit_cols literals arithmetic) [parent_node]

/-- make_topk_node (source lines 950-981): offsets other than 0 are
fatal. -/
def make_topk_node (v : Nat) (name : String) (parent : MirNode)
    (group_by : List Column) (order : Option OrderClause) (limit : LimitClause) :
    Option MirNode :=
  let combined_columns := parent.columns
  let order := order.map (·.columns)
  if limit.offset = 0 then
    some (.mk name v combined_columns (.TopK order group_by limit.limit 0) [parent])
  else none

/-- Vec::sort_by_key on schema entries: a stable insertion sort ascending
by schema version. -/
def insertBySv (x : Nat × List ColumnSpecification) :
    List (Nat × List ColumnSpecification) → List (Nat × List ColumnSpecification)
  | [] => [x]
  | y :: ys => if x.1 ≤ y.1 then x :: y :: ys else y :: insertBySv x ys

/-- Stable sort of the recorded schemas by version, ascending. -/
def sortBySv : List (Nat × List ColumnSpecification) →
    List (Nat × List ColumnSpecification)
  | [] => []
  | x :: xs => insertBySv x (sortBySv xs)

/-- Vec::remove of the first element equal (under eq) to x, fatal when
absent: the position lookup plus remove of source lines 488-496. -/
def removeFirstBy {α : Type} (eq : α → α → Bool) (l : List α) (x : α) :
    Option (List α) :=
  match l.findIdx? (fun cc => eq cc x) with
  | none => none
  | some pos => some (l.eraseIdx pos)

/-- Sequential removal of every element of the second list from the first,
each at the position of its first occurrence. -/
def removeAllBy {α : Type} (eq : α → α → Bool) (l : List α) :
    List α → Option (List α)
  | [] => some l
  | x :: xs => do
    let l' ← removeFirstBy eq l x
    removeAllBy eq l' xs

/-- Modelled from the spec (sections 4.3, 3.5): MirNode::adapt_base lives
in the mir crate.  It clones the prior base's column list, appends the
added columns, removes each removed column by position, and records
adapted_over = {prior node, added, removed}; the column specifications
are adapted the same way.  The prior node's name and version are kept. -/
def MirNode.adapt_base (node : MirNode) (added removed : List ColumnSpecification) :
    Option MirNode :=
  match node.inner with
  | .Base column_specs keys transactional _ => do
    let cols ← removeAllBy columnEq (node.columns ++ added.map (·.column))
      (removed.map (·.column))
    let specs ← removeAllBy columnSpecEq (column_specs.map Prod.fst ++ added) removed
    some (.mk node.name node.version cols
      (.Base (specs.map fun s => (s, none)) keys transactional
        (some (node, added, removed)))
      [])
  | _ => none

/-- The fall-through tail of make_base_node (source lines 517-583): assert
every column's table is the base's name, select at most one primary key,
record the schema for this version, and construct a fresh Base node. -/
def make_base_node_fresh (st : SqlToMirConverter) (name : String)
    (cols : List ColumnSpecification) (keys : Option (List TableKey))
    (transactional : Bool) : Option (MirNode × SqlToMirConverter) :=
  if cols.all (fun c => c.column.table == some name) then
    let primary_keys := (keys.getD []).filter fun k =>
      match k with
      | .PrimaryKey _ => true
      | _ => false
    if primary_keys.length ≤ 1 then
      let entry := (st.base_schemas name).getD []
      let bs' := mapInsert st.base_schemas name (entry ++ [(st.schema_version, cols)])
      let st' := { st with base_schemas := bs' }
      let node := match primary_keys.head? with
        | some (.PrimaryKey key_cols) =>
          MirNode.mk name st.schema_version (cols.map (·.column))
            (.Base (cols.map fun cs => (cs, none)) key_cols transactional none) []
        | _ =>
          MirNode.mk name st.schema_version (cols.map (·.column))
            (.Base (cols.map fun cs => (cs, none)) [] transactional none) []
      some (node, st')
    else none
  else none

/-- make_base_node (source lines 406-584).  The newest-first scan of the
recorded schemas always decides on its first iteration (every branch of
the loop body returns or breaks), so only the newest recorded schema is
examined: an exact match yields a Reuse, a pure add/remove change with at
least one unchanged column yields an adapted Base and records the new
schema, and anything else falls through to a fresh Base. -/
def make_base_node (st : SqlToMirConverter) (name : String)
    (cols : List ColumnSpecification) (keys : Option (List TableKey))
    (transactional : Bool) : Option (MirNode × SqlToMirConverter) :=
  match st.base_schemas name with
  | none => make_base_node_fresh st name cols keys transactional
  | some schemas =>
    match (sortBySv schemas).reverse with
    | [] => make_base_node_fresh st name cols keys transactional
    | (existing_sv, schema) :: _ =>
      if columnSpecListEq schema cols then
        match st.nodes (name, existing_sv) with
        | none => none
        | some existing_node => some (existing_node.reuseOf st.schema_version, st)
      else
        let columns_added := cols.filter fun c => !(schema.any fun x => columnSpecEq x c)
        let columns_removed := schema.filter fun c => !(cols.any fun x => columnSpecEq x c)
        let columns_unchanged := cols.filter fun c => schema.any fun x => columnSpecEq x c
        if columns_unchanged.length > 0 &&
            (columns_added.length > 0 || columns_removed.length > 0) then
          match st.nodes (name, existing_sv) with
          | none => none
          | some existing_node => do
            let specs ← existing_node.column_specifications
            let columns0 := specs.map Prod.fst ++ columns_added
            let columns ← removeAllBy columnSpecEq columns0 columns_removed
            if (columns.length : Int) =
                (existing_node.columns.length : Int) + columns_added.length
                  - columns_removed.length then
              let entry := (st.base_schemas name).getD []
              let bs' := mapInsert st.base_schemas name
                (entry ++ [(st.schema_version, columns)])
              let st' := { st with base_schemas := bs' }
              let node ← existing_node.adapt_base columns_added columns_removed
              some (node, st')
            else none
        else make_base_node_fresh st name cols keys transactional

/-- named_base_to_mir (source lines 333-352): build the base node, then
register it at (name, current schema version) only when that key is
absent. -/
def named_base_to_mir (st : SqlToMirConverter) (name : String) (query : SqlQuery)
    (transactional : Bool) : Option (MirQuery × SqlToMirConverter) :=
  match query with
  | .CreateTable ctq =>
    if name == ctq.table then do
      let (n, st1) ← make_base_node st name ctq.fields ctq.keys transactional
      let node_id := (name, st1.schema_version)
      let st2 :=
        if (st1.nodes node_id).isSome then st1
        else { st1 with nodes := mapInsert st1.nodes node_id n,
                        current := mapInsert st1.current name st1.schema_version }
      some ({ name := name, roots := [n], leaf := n }, st2)
    else none
  | _ => none

/-- The insert-if-absent node registration step shared by
named_query_to_mir's loop and compound_query_to_mir's three registration
sites: insert only when the key is absent. -/
def guardedRegister (st : SqlToMirConverter) (key : String × Nat) (node : MirNode) :
    SqlToMirConverter :=
  if (st.nodes key).isSome then st
  else { st with nodes := mapInsert st.nodes key node }

/-- The node-registration loop of named_query_to_mir (source lines
365-372): each produced node is added under (its name, current schema
version) only when that key is absent.  The node list produced by
make_nodes_for_selection is a parameter here because the phases that
produce it are driven by collaborator modules (join, grouped, security)
that are not part of this source file; the loop itself is verbatim. -/
def named_query_register_nodes (st : SqlToMirConverter) (nodes_added : List MirNode) :
    SqlToMirConverter :=
  nodes_added.foldl
    (fun acc mn => guardedRegister acc (mn.name, acc.schema_version) mn)
    st

/-- compound_query_to_mir (source lines 229-314): a union over the child
queries' leaves, an optional TopK, an optional Leaf; each of the three
node registrations only inserts when its key is absent. -/
def compound_query_to_mir (st : SqlToMirConverter) (name : String)
    (sqs : List MirQuery) (op : CompoundSelectOperator) (order : Option OrderClause)
    (limit : Option LimitClause) (has_leaf : Bool) :
    Option (MirQuery × SqlToMirConverter) := do
  let union_name := if !has_leaf && limit.isNone then name else name ++ "_union"
  let final_node ← match op with
    | .Union => make_union_node st.schema_version union_name (sqs.map (·.leaf))
    | _ => none
  let st := guardedRegister st (union_name, st.schema_version) final_node
  let columns := final_node.columns
  let sanitized_columns := columns.map fun c => sanitize_leaf_column c name
  let (final_node, st) ← match limit with
    | some lim => do
      let (topk_name, topk_columns) :=
        if !has_leaf then (name, sanitized_columns) else (name ++ "_topk", columns)
      let topk_node ← make_topk_node st.schema_version topk_name final_node
        topk_columns order lim
      some (topk_node, guardedRegister st (topk_name, st.schema_version) topk_node)
    | none => some (final_node, st)
  let leaf_node :=
    if has_leaf then
      MirNode.mk name st.schema_version sanitized_columns
        (.Leaf final_node []) [final_node]
    else final_node
  let st := { st with current := mapInsert st.current leaf_node.name st.schema_version }
  let st := guardedRegister st (name, st.schema_version) leaf_node
  some ({ name := name,
          roots := sqs.foldl (fun acc mq => acc ++ mq.roots) [],
          leaf := leaf_node }, st)

/-- add_leaf_below (source lines 156-227): hang a reprojection (or an
identity) and a fresh Leaf keyed on params off a prior leaf; the leaf is
always registered, overwriting any node already stored at (name, current
schema version). -/
def add_leaf_below (st : SqlToMirConverter) (prior_leaf : MirNode) (name : String)
    (params : List Column) (project_columns : Option (List Column)) :
    MirQuery × SqlToMirConverter :=
  let parent_columns := prior_leaf.columns
  let parent := prior_leaf.reuseOf st.schema_version
  let (reproject, columns) := match project_columns with
    | none => (false, parent_columns)
    | some pc => (true, pc ++ params)
  let n :=
    if reproject then
      MirNode.mk (name ++ "_reproject") st.schema_version columns
        (.Project columns [] []) [parent]
    else
      MirNode.mk (name ++ "_id") st.schema_version columns .Identity [parent]
  let new_leaf := MirNode.mk name st.schema_version
    (columns.map fun c => sanitize_leaf_column c name)
    (.Leaf parent params) [n]
  let st' := { st with
    current := mapInsert st.current name st.schema_version,
    nodes := mapInsert st.nodes (name, st.schema_version) new_leaf }
  ({ name := name, roots := [parent], leaf := new_leaf }, st')

/-- upgrade_schema (source lines 401-404): fatal unless the new version is
strictly greater than the current one. -/
def upgrade_schema (st : SqlToMirConverter) (new_version : Nat) :
    Option SqlToMirConverter :=
  if new_version > st.schema_version then
    some { st with schema_version := new_version }
  else none

/-- The literal output columns of the query graph as projected literal
(name, value) pairs (source lines 1385-1394). -/
def qgProjectedLiterals (qg : QueryGraph) : List (String × DataType) :=
  qg.columns.filterMap fun oc =>
    match oc with
    | .Literal n val => some (n, DataType.fromLiteral val)
    | _ => none

/-- The projection-and-leaf phase of make_nodes_for_selection (source
lines 1350-1457).  The phases before it (bases, joins, grouped nodes,
security boundary, predicate chains) are driven by collaborator modules
that are not part of this source file; their result, final_node, and the
node-name ingredients (signature hash, node counter, universe suffix) are
parameters.  The hash is rendered in decimal rather than hex.  Returns
the projection node and, when has_leaf, the Leaf node stacked on it. -/
def make_leaf_nodes (st : SqlToMirConverter) (name : String) (qg : QueryGraph)
    (has_leaf : Bool) (univ : UniverseId) (sigHash : Nat) (new_node_count : Nat)
    (uformat : String) (final_node : MirNode) : MirNode × Option MirNode :=
  let final_node_cols := final_node.columns
  let projected_columns : List Column :=
    if univ.2.isNone then
      qg.columns.filterMap fun oc =>
        match oc with
        | .Arithmetic _ _ => none
        | .Data c => some c
        | .Literal _ _ => none
    else final_node_cols
  let projected_columns := qg.parameters.foldl
    (fun pcs pc => if pcs.any (fun c => columnEq c pc) then pcs else pcs ++ [pc])
    projected_columns
  let projected_arithmetic : List (String × ArithmeticExpression) :=
    qg.columns.filterMap fun oc =>
      match oc with
      | .Arithmetic n e => some (n, e)
      | _ => none
  let projected_literals := qgProjectedLiterals qg
  let (projected_literals, has_bogokey) :=
    if has_leaf && qg.parameters.isEmpty then
      (projected_literals ++ [("bogokey", DataType.Int 0)], true)
    else (projected_literals, false)
  let ident :=
    if has_leaf then
      "q_" ++ toString sigHash ++ "_n" ++ toString new_node_count ++ uformat
    else name
  let leaf_project_node := make_project_node st.schema_version ident final_node
    projected_columns projected_arithmetic projected_literals (!has_leaf)
  let leafNode :=
    if has_leaf then
      let columns := leaf_project_node.columns.map fun c => sanitize_leaf_column c name
      let query_params :=
        if has_bogokey then
          [{ name := "bogokey", table := some ident, alias' := none,
             function := none : Column }]
        else qg.parameters
      some (MirNode.mk name st.schema_version columns
        (.Leaf leaf_project_node query_params) [leaf_project_node])
    else none
  (leaf_project_node, leafNode)

/-- The key columns of a Leaf node. -/
def MirNode.leafKeys (n : MirNode) : Option (List Column) :=
  match n.inner with
  | .Leaf _ ks => some ks
  | _ => none

/-- The adapted_over record of a Base node. -/
def MirNode.adapted_over (n : MirNode) :
    Option (MirNode × List ColumnSpecification × List ColumnSpecification) :=
  match n.inner with
  | .Base _ _ _ ao => ao
  | _ => none

/-- Whether a node is a Filter node. -/
def MirNode.isFilter (n : MirNode) : Bool :=
  match n.inner with
  | .Filter _ => true
  | _ => false

/-- A condition tree made only of And connectives over comparison
leaves. -/
def andCompOnly : ConditionExpression → Bool
  | .logicalOp .And l r => andCompOnly l && andCompOnly r
  | .comparisonOp _ _ _ => true
  | _ => false

/-- The number of comparison leaves of a condition tree. -/
def comparisonLeafCount : ConditionExpression → Nat
  | .logicalOp _ l r => comparisonLeafCount l + comparisonLeafCount r
  | .comparisonOp _ _ _ => 1
  | _ => 0

/-- Reference recursion for the per-ancestor emit computation of
make_union_node: keep each column whose name is selected and not yet
seen, recording kept names in seen. -/
def selectFirstByName (sel : String → Bool) (seen : List String) :
    List Column → List Column
  | [] => []
  | c :: cs =>
    if sel c.name && !(seen.contains c.name)
    then c :: selectFirstByName sel (c.name :: seen) cs
    else selectFirstByName sel seen cs

section Fixtures

/-- A converter with empty state at schema version 0. -/
def emptyConverter : SqlToMirConverter :=
  { base_schemas := fun _ => none, current := fun _ => none,
    nodes := fun _ => none, schema_version := 0 }

def colA : Column := { name := "a", table := some "t", alias' := none, function := none }

def colB : Column := { name := "b", table := some "t", alias' := none, function := none }

def colC : Column := { name := "c", table := some "t", alias' := none, function := none }

def csA : ColumnSpecification := { column := colA, sql_type := "int", constraints := [] }

def csB : ColumnSpecification := { column := colB, sql_type := "int", constraints := [] }

def csC : ColumnSpecification := { column := colC, sql_type := "int", constraints := [] }

/-- A base node for table t with columns [a, b] and key [a]. -/
def baseT : MirNode :=
  .mk "t" 0 [colA, colB] (.Base [(csA, none), (csB, none)] [colA] false none) []

/-- A second base node, table s, with single column named b. -/
def colBs : Column := { name := "b", table := some "s", alias' := none, function := none }

def baseS : MirNode :=
  .mk "s" 0 [colBs]
    (.Base [({ column := colBs, sql_type := "int", constraints := [] }, none)] [] false none)
    []

/-- A converter that already stores table t (schema and node) and a node
under the view name v. -/
def cState : SqlToMirConverter :=
  { base_schemas := fun n => if n = "t" then some [(0, [csA, csB])] else none,
    current := fun n => if n = "t" then some 0 else none,
    nodes := fun k =>
      if k = ("t", 0) then some baseT
      else if k = ("v", 0) then some baseT
      else none,
    schema_version := 0 }

/-- cState after a schema upgrade to version 1. -/
def cState1 : SqlToMirConverter := { cState with schema_version := 1 }

/-- A concrete comparison predicate a = 1. -/
def wCmp : ConditionExpression :=
  .comparisonOp .Equal (.base (.Field colA)) (.base (.Literal (.Integer 1)))

/-- A concrete CREATE TABLE t (a, b) query. -/
def wCreate : SqlQuery := .CreateTable { table := "t", fields := [csA, csB], keys := none }

/-- A concrete equi-join predicate t.a = s.b. -/
def wJp : ConditionTree := ⟨.Equal, .base (.Field colA), .base (.Field colBs)⟩

/-- The join node built from wJp over baseT and baseS. -/
def wJoin : MirNode := (make_join_node 0 "j" wJp baseT baseS .Inner).getD baseT

/-- The predicate chain built from wCmp over baseT. -/
def wL : List MirNode := (make_predicate_nodes 0 "q" baseT wCmp 0).getD []

/-- The predicate chain built from wCmp over baseT with the counter moved
past wL. -/
def wR : List MirNode := (make_predicate_nodes 0 "q" baseT wCmp (0 + wL.length)).getD []

def wll : MirNode := wL.getLast?.getD baseT

def wlr : MirNode := wR.getLast?.getD baseT

/-- The predicate chain built from wCmp AND wCmp over baseT. -/
def wAndNs : List MirNode :=
  (make_predicate_nodes 0 "q" baseT (.logicalOp .And wCmp wCmp) 0).getD []

/-- A query graph with one data output column and no parameters. -/
def wQg0 : QueryGraph := { columns := [.Data colA], parameters := [] }

/-- A query graph with one data output column and one parameter. -/
def wQgP : QueryGraph := { columns := [.Data colA], parameters := [colB] }

def wProj0 : MirNode :=
  (make_leaf_nodes cState "view" wQg0 true ("global", none) 1 2 "" baseT).1

def wLeaf0 : Option MirNode :=
  (make_leaf_nodes cState "view" wQg0 true ("global", none) 1 2 "" baseT).2

def wProjP : MirNode :=
  (make_leaf_nodes cState "view" wQgP true ("global", none) 1 2 "" baseT).1

def wLeafP : Option MirNode :=
  (make_leaf_nodes cState "view" wQgP true ("global", none) 1 2 "" baseT).2

/-- A singleton query over baseT. -/
def wMq1 : MirQuery := { name := "t", roots := [baseT], leaf := baseT }

/-- A singleton query over baseS. -/
def wMq2 : MirQuery := { name := "s", roots := [baseS], leaf := baseS }

/-- The result of registering CREATE TABLE t (a, b) a second time. -/
def wNBst : SqlToMirConverter :=
  ((named_base_to_mir cState "t" wCreate false).getD (wMq1, cState)).2

def wNBq : MirQuery :=
  ((named_base_to_mir cState "t" wCreate false).getD (wMq1, cState)).1

/-- The result of a compound UNION query over wMq1 and wMq2. -/
def wCqSt : SqlToMirConverter :=
  ((compound_query_to_mir cState "cq" [wMq1, wMq2] .Union none none false).getD
    (wMq1, cState)).2

def wCq : MirQuery :=
  ((compound_query_to_mir cState "cq" [wMq1, wMq2] .Union none none false).getD
    (wMq1, cState)).1

end Fixtures

/-- C9: upgrade_schema(new_v) succeeds and sets the converter's
schema_version to new_v when new_v is strictly greater than the current
schema_version, and is rejected (fatal assertion) for every new_v less
than or equal to the current schema_version. -/
theorem upgrade_schema_spec (st : SqlToMirConverter) (new_version : Nat) :
    (st.schema_version < new_version →
      upgrade_schema st new_version = some { st with schema_version := new_version }) ∧
    (new_version ≤ st.schema_version → upgrade_schema st new_version = none) := by
  constructor
  · intro h
    unfold upgrade_schema
    rw [if_pos h]
  · intro h
    unfold upgrade_schema
    rw [if_neg (by omega)]

theorem upgrade_schema_spec_witness :
    upgrade_schema cState 1 = some cState1 ∧ upgrade_schema cState1 1 = none :=
  ⟨(upgrade_schema_spec cState 1).1 (by decide),
   (upgrade_schema_spec cState1 1).2 (by decide)⟩

/-- C8: every grouped node built by make_grouped_node (Aggregation,
Extremum, or GroupConcat) has output columns equal to the group-by
columns followed by the computed column, where the computed column, if it
has an alias, first has its name replaced by the alias and its alias
cleared. -/
theorem make_grouped_node_columns (v : Nat) (name : String) (computed_col : Column)
    (parent : MirNode) (over_col : Column) (group_by : List Column)
    (node_type : GroupedNodeType) :
    (make_grouped_node v name computed_col (parent, over_col) group_by node_type).columns
      = group_by ++
        [{ name := computed_col.alias'.getD computed_col.name,
           table := computed_col.table, alias' := none,
           function := computed_col.function }] := by
  rcases computed_col with ⟨n, t, al, f⟩
  cases al <;> cases node_type <;>
    simp [make_grouped_node, MirNode.columns, Option.getD]

theorem conditionField_eq_some (e : ConditionExpression) (c : Column) :
    conditionField e = some c ↔ e = .base (.Field c) := by
  cases e with
  | comparisonOp op l r => simp [conditionField]
  | logicalOp op l r => simp [conditionField]
  | negationOp e => simp [conditionField]
  | base b => cases b <;> simp [conditionField]

/-- C7: every Join or LeftJoin node built by make_join_node has output
columns equal to the left ancestor's columns followed by the right
ancestor's, carries exactly one on_left and one on_right column (equal
lengths), and is only constructed when the join predicate's operator is =
or IN with column references on both sides; any other shape is fatal. -/
theorem make_join_node_spec (v : Nat) (name : String) (jp : ConditionTree)
    (left_node right_node : MirNode) (kind : JoinType) :
    ((make_join_node v name jp left_node right_node kind).isSome = true ↔
      ((jp.operator = .Equal ∨ jp.operator = .In) ∧
        (∃ lc, jp.left = .base (.Field lc)) ∧
        (∃ rc, jp.right = .base (.Field rc)))) ∧
    (∀ n, make_join_node v name jp left_node right_node kind = some n →
      n.columns = left_node.columns ++ right_node.columns ∧
      n.ancestors = [left_node, right_node] ∧
      ∃ lc rc, jp.left = .base (.Field lc) ∧ jp.right = .base (.Field rc) ∧
        ((kind = .Inner ∧
            n.inner = .Join [lc] [rc] (left_node.columns ++ right_node.columns)) ∨
          (kind = .Left ∧
            n.inner = .LeftJoin [lc] [rc] (left_node.columns ++ right_node.columns)))) := by
  rcases jp with ⟨op, cl, cr⟩
  by_cases hop : op = Operator.Equal ∨ op = Operator.In
  · have hguard : (op == Operator.Equal || op == Operator.In) = true := by
      rcases hop with h | h <;> simp [h]
    rcases hcl : conditionField cl with _ | lc
    · have hnone : make_join_node v name ⟨op, cl, cr⟩ left_node right_node kind = none := by
        simp [make_join_node, hguard, hcl]
      have hnB : ¬ ∃ lc, cl = .base (.Field lc) := by
        rintro ⟨lc, rfl⟩
        simp [conditionField] at hcl
      refine ⟨?_, ?_⟩
      · rw [hnone]
        simp only [Option.isSome_none, Bool.false_eq_true, false_iff]
        rintro ⟨-, hB, -⟩
        exact hnB hB
      · intro n hn
        rw [hnone] at hn
        exact Option.noConfusion hn
    · rcases hcr : conditionField cr with _ | rc
      · have hnone : make_join_node v name ⟨op, cl, cr⟩ left_node right_node kind = none := by
          simp [make_join_node, hguard, hcl, hcr]
        have hnB : ¬ ∃ rc, cr = .base (.Field rc) := by
          rintro ⟨rc, rfl⟩
          simp [conditionField] at hcr
        refine ⟨?_, ?_⟩
        · rw [hnone]
          simp only [Option.isSome_none, Bool.false_eq_true, false_iff]
          rintro ⟨-, -, hB⟩
          exact hnB hB
        · intro n hn
          rw [hnone] at hn
          exact Option.noConfusion hn
      · have hsome : make_join_node v name ⟨op, cl, cr⟩ left_node right_node kind =
            some (.mk name v (left_node.columns ++ right_node.columns)
              (match kind with
               | .Inner =>
                 MirNodeTypeF.Join [lc] [rc] (left_node.columns ++ right_node.columns)
               | .Left =>
                 MirNodeTypeF.LeftJoin [lc] [rc] (left_node.columns ++ right_node.columns))
              [left_node, right_node]) := by
          simp [make_join_node, hguard, hcl, hcr]
        refine ⟨?_, ?_⟩
        · rw [hsome]
          simp only [Option.isSome_some, true_iff]
          exact ⟨hop, ⟨lc, (conditionField_eq_some cl lc).1 hcl⟩,
            ⟨rc, (conditionField_eq_some cr rc).1 hcr⟩⟩
        · intro n hn
          rw [hsome] at hn
          injection hn with hn
          subst hn
          refine ⟨rfl, rfl, lc, rc, (conditionField_eq_some cl lc).1 hcl,
            (conditionField_eq_some cr rc).1 hcr, ?_⟩
          cases kind
          · exact Or.inl ⟨rfl, rfl⟩
          · exact Or.inr ⟨rfl, rfl⟩
  · have h1 : op ≠ Operator.Equal := fun h => hop (Or.inl h)
    have h2 : op ≠ Operator.In := fun h => hop (Or.inr h)
    have hguard : (op == Operator.Equal || op == Operator.In) = false := by
      simp [h1, h2]
    have hnone : make_join_node v name ⟨op, cl, cr⟩ left_node right_node kind = none := by
      simp [make_join_node, hguard]
    refine ⟨?_, ?_⟩
    · rw [hnone]
      simp only [Option.isSome_none, Bool.false_eq_true, false_iff]
      rintro ⟨hA, -, -⟩
      exact hop hA
    · intro n hn
      rw [hnone] at hn
      exact Option.noConfusion hn

theorem make_join_node_spec_witness :
    make_join_node 0 "j" wJp baseT baseS .Inner = some wJoin ∧
    wJoin.columns = baseT.columns ++ baseS.columns :=
  ⟨rfl, ((make_join_node_spec 0 "j" wJp baseT baseS .Inner).2 wJoin rfl).1⟩

/-- C2: for an OR condition tree, both chains are built from the same
parent (the left with the incoming counter, the right with the counter
advanced past the left chain), and the returned sequence is the left
chain, then the right chain, then a Union node whose two ancestors are
the tails of the two chains and whose two emit lists both equal the
parent's column list. -/
theorem make_predicate_nodes_or (v : Nat) (name : String) (parent : MirNode)
    (cl cr : ConditionExpression) (nc : Nat) (L R : List MirNode) (ll lr : MirNode)
    (hL : make_predicate_nodes v name parent cl nc = some L)
    (hR : make_predicate_nodes v name parent cr (nc + L.length) = some R)
    (hll : L.getLast? = some ll) (hlr : R.getLast? = some lr) :
    make_predicate_nodes v name parent (.logicalOp .Or cl cr) nc =
      some (L ++ R ++ [MirNode.mk (name ++ "_un") v parent.columns
        (.Union [parent.columns, parent.columns]) [ll, lr]]) := by
  unfold make_predicate_nodes
  simp [hL, hR, hll, hlr, make_union_from_same_base]

theorem make_predicate_nodes_or_witness :
    make_predicate_nodes 0 "q" baseT (.logicalOp .Or wCmp wCmp) 0 =
      some (wL ++ wR ++ [MirNode.mk "q_un" 0 baseT.columns
        (.Union [baseT.columns, baseT.columns]) [wll, wlr]]) :=
  make_predicate_nodes_or 0 "q" baseT wCmp wCmp 0 wL wR wll wlr rfl rfl rfl rfl

theorem make_filter_node_def (v : Nat) (nm : String) (parent : MirNode)
    (cond : ConditionTree) :
    make_filter_node v nm parent cond =
      (to_conditions cond parent.columns parent).bind fun p =>
        some (.mk nm v p.2 (.Filter p.1) [parent]) := rfl

theorem make_filter_node_shape (v : Nat) (nm : String) (parent : MirNode)
    (ct : ConditionTree) (f : MirNode)
    (h : make_filter_node v nm parent ct = some f) :
    f.isFilter = true ∧ f.ancestors = [parent] := by
  rw [make_filter_node_def] at h
  rcases htc : to_conditions ct parent.columns parent with _ | ⟨fl, fs⟩ <;>
    rw [htc] at h
  · simp at h
  · simp only [Option.some_bind, Option.some.injEq] at h
    subst h
    exact ⟨rfl, rfl⟩

theorem make_predicate_nodes_cmp_def (v : Nat) (name : String) (parent : MirNode)
    (op : Operator) (l r : ConditionExpression) (nc : Nat) :
    make_predicate_nodes v name parent (.comparisonOp op l r) nc =
      (make_filter_node v (name ++ "_f" ++ toString nc) parent ⟨op, l, r⟩).bind
        fun f => some [f] := rfl

theorem make_predicate_nodes_and_def (v : Nat) (name : String) (parent : MirNode)
    (l r : ConditionExpression) (nc : Nat) :
    make_predicate_nodes v name parent (.logicalOp .And l r) nc =
      (make_predicate_nodes v name parent l nc).bind fun left =>
        left.getLast?.bind fun lastLeft =>
          (make_predicate_nodes v name lastLeft r (nc + left.length)).bind fun right =>
            some (left ++ right) := rfl

/-- C5: for an And-only condition tree, the returned node sequence has
length equal to the number of comparison leaves, every node is a Filter,
and the nodes form a chain starting at the parent: each node's sole
ancestor is the node before it (the right subtree's chain starts from the
last node of the left subtree's chain). -/
theorem make_predicate_nodes_and_chain :
    ∀ (ce : ConditionExpression) (v : Nat) (name : String) (parent : MirNode)
      (nc : Nat) (ns : List MirNode),
      andCompOnly ce = true →
      make_predicate_nodes v name parent ce nc = some ns →
      ns.length = comparisonLeafCount ce ∧
      (∀ n ∈ ns, n.isFilter = true) ∧
      List.Chain' (fun a b => b.ancestors = [a]) (parent :: ns) := by
  intro ce
  induction ce with
  | comparisonOp op l r =>
    intro v name parent nc ns hac h
    rw [make_predicate_nodes_cmp_def] at h
    rcases hf : make_filter_node v (name ++ "_f" ++ toString nc) parent ⟨op, l, r⟩
      with _ | f <;> rw [hf] at h
    · simp at h
    · simp only [Option.some_bind, Option.some.injEq] at h
      subst h
      obtain ⟨hfil, hanc⟩ := make_filter_node_shape _ _ _ _ _ hf
      refine ⟨rfl, ?_, ?_⟩
      · intro n hn
        simp only [List.mem_singleton] at hn
        subst hn
        exact hfil
      · exact List.chain'_cons.mpr ⟨hanc, List.chain'_singleton f⟩
  | logicalOp op l r ihl ihr =>
    intro v name parent nc ns hac h
    cases op with
    | And =>
      simp only [andCompOnly, Bool.and_eq_true] at hac
      obtain ⟨hacl, hacr⟩ := hac
      rw [make_predicate_nodes_and_def] at h
      rcases hL : make_predicate_nodes v name parent l nc with _ | L <;> rw [hL] at h
      · simp at h
      rcases hll : L.getLast? with _ | lastL <;>
        simp only [Option.some_bind] at h <;> rw [hll] at h
      · simp at h
      rcases hR : make_predicate_nodes v name lastL r (nc + L.length) with _ | R <;>
        simp only [Option.some_bind] at h <;> rw [hR] at h
      · simp at h
      simp only [Option.some_bind, Option.some.injEq] at h
      subst h
      obtain ⟨hlen1, hfil1, hch1⟩ := ihl v name parent nc L hacl hL
      obtain ⟨hlen2, hfil2, hch2⟩ := ihr v name lastL (nc + L.length) R hacr hR
      have hLne : L ≠ [] := by
        intro e
        rw [e] at hll
        simp at hll
      refine ⟨?_, ?_, ?_⟩
      · simp [comparisonLeafCount, hlen1, hlen2]
      · intro n hn
        rcases List.mem_append.mp hn with h' | h'
        exacts [hfil1 n h', hfil2 n h']
      · have hsplit : parent :: (L ++ R) = (parent :: L) ++ R := rfl
        rw [hsplit]
        refine List.Chain'.append hch1 hch2.tail ?_
        intro x hx y hy
        obtain ⟨l0, L', rfl⟩ : ∃ l0 L', L = l0 :: L' := by
          cases L with
          | nil => exact absurd rfl hLne
          | cons a b => exact ⟨a, b, rfl⟩
        rw [List.getLast?_cons_cons, hll] at hx
        simp only [Option.mem_def, Option.some.injEq] at hx
        subst hx
        cases R with
        | nil => simp at hy
        | cons r0 R' =>
          simp only [List.head?_cons, Option.mem_def, Option.some.injEq] at hy
          subst hy
          exact (List.chain'_cons.mp hch2).1
    | Or => simp [andCompOnly] at hac
    | Equal => simp [andCompOnly] at hac
    | NotEqual => simp [andCompOnly] at hac
    | Less => simp [andCompOnly] at hac
    | LessOrEqual => simp [andCompOnly] at hac
    | Greater => simp [andCompOnly] at hac
    | GreaterOrEqual => simp [andCompOnly] at hac
    | In => simp [andCompOnly] at hac
    | Like => simp [andCompOnly] at hac
  | negationOp e ih =>
    intro v name parent nc ns hac h
    simp [andCompOnly] at hac
  | base b =>
    intro v name parent nc ns hac h
    simp [andCompOnly] at hac

/-- C4: for a condition tree whose left side is a column reference, the
returned filter vector has max(|columns|, max(absolute ids)+1) slots, all
None except the one for the condition: when some entry of columns carries
the left column's name, the condition sits at the absolute column id of
the rightmost such entry and columns is unchanged; otherwise the left
column is appended to columns and the condition is appended as one extra
slot at the end. -/
theorem to_conditions_spec (op : Operator) (l : Column) (rhs : ConditionExpression)
    (f : FilterCondition) (columns : List Column) (n : MirNode) (ids : List Nat)
    (m : Nat)
    (hf : conditionRhsFilter op rhs = some f)
    (hids : (columns.mapM fun c => n.column_id_for_column c) = some ids)
    (hmax : ids.max? = some m) :
    (∀ pos i, rpositionIdx (fun c => c.name == l.name) columns = some pos →
      ids[pos]? = some i →
      to_conditions ⟨op, .base (.Field l), rhs⟩ columns n =
        some ((List.replicate (max columns.length (m + 1))
          (none : Option FilterCondition)).set i (some f), columns)) ∧
    (rpositionIdx (fun c => c.name == l.name) columns = none →
      to_conditions ⟨op, .base (.Field l), rhs⟩ columns n =
        some (List.replicate (max columns.length (m + 1))
          (none : Option FilterCondition) ++ [some f], columns ++ [l])) := by
  have hdef : to_conditions ⟨op, .base (.Field l), rhs⟩ columns n =
      (conditionRhsFilter op rhs).bind fun f =>
        (columns.mapM fun c => n.column_id_for_column c).bind fun ids =>
          ids.max?.bind fun m =>
            match rpositionIdx (fun c => c.name == l.name) columns with
            | none =>
              some (List.replicate (max columns.length (m + 1))
                (none : Option FilterCondition) ++ [some f], columns ++ [l])
            | some pos =>
              match ids[pos]? with
              | none => none
              | some i =>
                some ((List.replicate (max columns.length (m + 1))
                  (none : Option FilterCondition)).set i (some f), columns) := rfl
  constructor
  · intro pos i hpos hi
    rw [hdef, hf, Option.some_bind, hids, Option.some_bind, hmax, Option.some_bind,
      hpos]
    simp [hi]
  · intro hpos
    rw [hdef, hf, Option.some_bind, hids, Option.some_bind, hmax, Option.some_bind,
      hpos]

theorem to_conditions_spec_witness :
    to_conditions ⟨.Equal, .base (.Field colA), .base (.Literal (.Integer 1))⟩
        [colA, colB] baseT =
      some ((List.replicate 2 (none : Option FilterCondition)).set 0
        (some (.Equality .Equal (.Int 1))), [colA, colB]) ∧
    to_conditions ⟨.Equal, .base (.Field colA), .base (.Literal (.Integer 1))⟩
        [colB] baseT =
      some (List.replicate 2 (none : Option FilterCondition) ++
        [some (.Equality .Equal (.Int 1))], [colB] ++ [colA]) :=
  ⟨(to_conditions_spec .Equal colA (.base (.Literal (.Integer 1)))
      (.Equality .Equal (.Int 1)) [colA, colB] baseT [0, 1] 1 rfl rfl rfl).1
      0 0 rfl rfl,
   (to_conditions_spec .Equal colA (.base (.Literal (.Integer 1)))
      (.Equality .Equal (.Int 1)) [colB] baseT [1] 1 rfl rfl rfl).2 rfl⟩

/-- C6: in the projection-and-leaf phase of make_nodes_for_selection with
has_leaf set, when the query graph has no parameters a ("bogokey", 0)
literal is appended to the projected literals and the emitted Leaf's key
list is exactly the single bogokey column; when the query graph has
parameters, the Leaf's keys are exactly qg.parameters. -/
theorem make_leaf_nodes_keys (st : SqlToMirConverter) (name : String)
    (qg : QueryGraph) (univ : UniverseId) (sigHash new_node_count : Nat)
    (uformat : String) (final_node : MirNode) :
    ∀ proj leafn,
      make_leaf_nodes st name qg true univ sigHash new_node_count uformat
        final_node = (proj, leafn) →
      (qg.parameters = [] →
        leafn = some (MirNode.mk name st.schema_version
          (proj.columns.map fun c => sanitize_leaf_column c name)
          (.Leaf proj
            [{ name := "bogokey",
               table := some ("q_" ++ toString sigHash ++ "_n" ++
                 toString new_node_count ++ uformat),
               alias' := none, function := none }])
          [proj]) ∧
        ∃ emit arith, proj.inner =
          .Project emit (qgProjectedLiterals qg ++ [("bogokey", DataType.Int 0)])
            arith) ∧
      (qg.parameters ≠ [] →
        leafn = some (MirNode.mk name st.schema_version
          (proj.columns.map fun c => sanitize_leaf_column c name)
          (.Leaf proj qg.parameters) [proj]) ∧
        ∃ emit arith, proj.inner =
          .Project emit (qgProjectedLiterals qg) arith) := by
  intro proj leafn h
  unfold make_leaf_nodes at h
  constructor
  · intro hp
    rw [hp] at h
    simp only [List.isEmpty_nil, Bool.and_self, if_true, List.foldl_nil,
      Prod.mk.injEq] at h
    obtain ⟨h1, h2⟩ := h
    subst h1
    subst h2
    exact ⟨rfl, _, _, rfl⟩
  · intro hp
    have hie : qg.parameters.isEmpty = false := by
      cases hqp : qg.parameters with
      | nil => exact absurd hqp hp
      | cons a l => simp
    rw [hie] at h
    simp only [Bool.and_false, if_false, Prod.mk.injEq] at h
    obtain ⟨h1, h2⟩ := h
    subst h1
    subst h2
    exact ⟨rfl, _, _, rfl⟩

theorem make_leaf_nodes_keys_witness :
    (wLeaf0 = some (MirNode.mk "view" cState.schema_version
      (wProj0.columns.map fun c => sanitize_leaf_column c "view")
      (.Leaf wProj0
        [{ name := "bogokey", table := some "q_1_n2", alias' := none,
           function := none }])
      [wProj0]) ∧
     ∃ emit arith, wProj0.inner =
       .Project emit (qgProjectedLiterals wQg0 ++ [("bogokey", DataType.Int 0)])
         arith) ∧
    (wLeafP = some (MirNode.mk "view" cState.schema_version
      (wProjP.columns.map fun c => sanitize_leaf_column c "view")
      (.Leaf wProjP wQgP.parameters) [wProjP]) ∧
     ∃ emit arith, wProjP.inner =
       .Project emit (qgProjectedLiterals wQgP) arith) :=
  ⟨(make_leaf_nodes_keys cState "view" wQg0 ("global", none) 1 2 "" baseT
      wProj0 wLeaf0 rfl).1 rfl,
   (make_leaf_nodes_keys cState "view" wQgP ("global", none) 1 2 "" baseT
      wProjP wLeafP rfl).2 (by simp [wQgP])⟩

theorem make_predicate_nodes_and_chain_witness :
    wAndNs.length = comparisonLeafCount (.logicalOp .And wCmp wCmp) ∧
    (∀ n ∈ wAndNs, n.isFilter = true) ∧
    List.Chain' (fun a b => b.ancestors = [a]) (baseT :: wAndNs) :=
  make_predicate_nodes_and_chain (.logicalOp .And wCmp wCmp) 0 "q" baseT 0 wAndNs
    rfl rfl

theorem guardedRegister_preserves (st : SqlToMirConverter) (key : String × Nat)
    (node : MirNode) (k : String × Nat) (v' : MirNode) (hk : st.nodes k = some v') :
    (guardedRegister st key node).nodes k = some v' := by
  unfold guardedRegister
  split
  · exact hk
  · rename_i hkey
    show mapInsert st.nodes key node k = some v'
    unfold mapInsert
    by_cases hkk : k = key
    · subst hkk
      rw [hk] at hkey
      simp at hkey
    · rw [if_neg hkk]
      exact hk

theorem guardedRegister_version (st : SqlToMirConverter) (key : String × Nat)
    (node : MirNode) :
    (guardedRegister st key node).schema_version = st.schema_version := by
  unfold guardedRegister
  split <;> rfl

theorem guardedRegister_current (st : SqlToMirConverter) (key : String × Nat)
    (node : MirNode) :
    (guardedRegister st key node).current = st.current := by
  unfold guardedRegister
  split <;> rfl

theorem guardedRegister_noop (st : SqlToMirConverter) (key : String × Nat)
    (node : MirNode) (hk : (st.nodes key).isSome = true) :
    guardedRegister st key node = st := by
  unfold guardedRegister
  rw [if_pos hk]

theorem named_query_register_nodes_noop :
    ∀ (ns : List MirNode) (st : SqlToMirConverter),
      (∀ mn ∈ ns, (st.nodes (mn.name, st.schema_version)).isSome = true) →
      named_query_register_nodes st ns = st := by
  intro ns
  induction ns with
  | nil => intro st _; rfl
  | cons mn ns ih =>
    intro st h
    unfold named_query_register_nodes
    simp only [List.foldl_cons]
    rw [guardedRegister_noop st (mn.name, st.schema_version) mn (h mn (by simp))]
    exact ih st fun x hx => h x (by simp [hx])

theorem add_leaf_below_registers (st : SqlToMirConverter) (prior : MirNode)
    (name : String) (params : List Column) (pc : Option (List Column)) :
    (add_leaf_below st prior name params pc).2.nodes (name, st.schema_version) =
      some (add_leaf_below st prior name params pc).1.leaf := by
  cases pc <;> simp [add_leaf_below, mapInsert]

theorem make_base_node_fresh_state (st : SqlToMirConverter) (name : String)
    (cols : List ColumnSpecification) (keys : Option (List TableKey))
    (tx : Bool) (n : MirNode) (st' : SqlToMirConverter)
    (h : make_base_node_fresh st name cols keys tx = some (n, st')) :
    st'.nodes = st.nodes ∧ st'.current = st.current ∧
      st'.schema_version = st.schema_version := by
  simp only [make_base_node_fresh] at h
  split at h
  · split at h
    · simp only [Option.some.injEq, Prod.mk.injEq] at h
      obtain ⟨-, h2⟩ := h
      subst h2
      exact ⟨rfl, rfl, rfl⟩
    · exact Option.noConfusion h
  · exact Option.noConfusion h

theorem make_base_node_state (st : SqlToMirConverter) (name : String)
    (cols : List ColumnSpecification) (keys : Option (List TableKey))
    (tx : Bool) (n : MirNode) (st' : SqlToMirConverter)
    (h : make_base_node st name cols keys tx = some (n, st')) :
    st'.nodes = st.nodes ∧ st'.current = st.current ∧
      st'.schema_version = st.schema_version := by
  simp only [make_base_node] at h
  split at h
  · exact make_base_node_fresh_state _ _ _ _ _ _ _ h
  · split at h
    · exact make_base_node_fresh_state _ _ _ _ _ _ _ h
    · split at h
      · split at h
        · exact Option.noConfusion h
        · simp only [Option.some.injEq, Prod.mk.injEq] at h
          obtain ⟨-, h2⟩ := h
          subst h2
          exact ⟨rfl, rfl, rfl⟩
      · split at h
        · split at h
          · exact Option.noConfusion h
          · simp only [Option.bind_eq_bind, Option.bind_eq_some] at h
            obtain ⟨specs, hsp, h⟩ := h
            obtain ⟨columns, hrm, h⟩ := h
            split at h
            · rw [Option.bind_eq_some] at h
              obtain ⟨node, hab, h⟩ := h
              simp only [Option.some.injEq, Prod.mk.injEq] at h
              obtain ⟨-, h2⟩ := h
              subst h2
              exact ⟨rfl, rfl, rfl⟩
            · exact Option.noConfusion h
        · exact make_base_node_fresh_state _ _ _ _ _ _ _ h

theorem named_base_to_mir_noop (st : SqlToMirConverter) (name : String)
    (query : SqlQuery) (tx : Bool) (q : MirQuery) (st' : SqlToMirConverter)
    (h : named_base_to_mir st name query tx = some (q, st'))
    (hpres : (st.nodes (name, st.schema_version)).isSome = true) :
    st'.nodes = st.nodes := by
  cases query with
  | Other => exact Option.noConfusion h
  | CreateTable ctq =>
    simp only [named_base_to_mir] at h
    split at h
    · rw [Option.bind_eq_bind, Option.bind_eq_some] at h
      obtain ⟨⟨n, st1⟩, hmb, h⟩ := h
      obtain ⟨hN, hC, hV⟩ := make_base_node_state _ _ _ _ _ _ _ hmb
      rw [hN, hV] at h
      rw [if_pos hpres] at h
      simp only [Option.some.injEq, Prod.mk.injEq] at h
      obtain ⟨-, h2⟩ := h
      rw [← h2]
      exact hN
    · exact Option.noConfusion h

theorem compound_query_to_mir_preserves (st : SqlToMirConverter) (name : String)
    (sqs : List MirQuery) (op : CompoundSelectOperator) (order : Option OrderClause)
    (limit : Option LimitClause) (hl : Bool) (q : MirQuery) (st' : SqlToMirConverter)
    (h : compound_query_to_mir st name sqs op order limit hl = some (q, st'))
    (k : String × Nat) (v' : MirNode) (hk : st.nodes k = some v') :
    st'.nodes k = some v' := by
  cases op with
  | Other => simp [compound_query_to_mir] at h
  | Union =>
    cases hl <;> cases limit <;>
        simp only [compound_query_to_mir, Option.bind_eq_bind, Option.bind_eq_some,
          Option.isNone_none, Option.isNone_some, Bool.not_false, Bool.not_true,
          Bool.true_and, Bool.false_and, Bool.and_false, Bool.and_true, if_true,
          if_false, Bool.false_eq_true, Bool.true_eq_false, ite_true, ite_false,
          Option.some_bind, Option.some.injEq, Prod.mk.injEq] at h <;>
      obtain ⟨fn, hu, h⟩ := h
    · obtain ⟨-, h2⟩ := h
      subst h2
      exact guardedRegister_preserves _ _ _ _ _
        (guardedRegister_preserves _ _ _ _ _ hk)
    · obtain ⟨tn, htn, h⟩ := h
      obtain ⟨-, h2⟩ := h
      subst h2
      exact guardedRegister_preserves _ _ _ _ _
        (guardedRegister_preserves _ _ _ _ _
          (guardedRegister_preserves _ _ _ _ _ hk))
    · obtain ⟨-, h2⟩ := h
      subst h2
      exact guardedRegister_preserves _ _ _ _ _
        (guardedRegister_preserves _ _ _ _ _ hk)
    · obtain ⟨tn, htn, h⟩ := h
      obtain ⟨-, h2⟩ := h
      subst h2
      exact guardedRegister_preserves _ _ _ _ _
        (guardedRegister_preserves _ _ _ _ _
          (guardedRegister_preserves _ _ _ _ _ hk))

/-- C1 (amended): registration is insert-if-absent for named_base_to_mir,
for the registration loop of named_query_to_mir, and for the three
registration sites of compound_query_to_mir, so a second registration at
an existing (name, current schema version) key leaves the nodes map
unchanged there; add_leaf_below instead always registers, overwriting the
entry at (name, current schema version) with the newly built leaf. -/
theorem registration_idempotence :
    (∀ (st : SqlToMirConverter) (name : String) (query : SqlQuery) (tx : Bool)
      (q : MirQuery) (st' : SqlToMirConverter),
      named_base_to_mir st name query tx = some (q, st') →
      (st.nodes (name, st.schema_version)).isSome = true →
      st'.nodes = st.nodes) ∧
    (∀ (st : SqlToMirConverter) (ns : List MirNode),
      (∀ mn ∈ ns, (st.nodes (mn.name, st.schema_version)).isSome = true) →
      named_query_register_nodes st ns = st) ∧
    (∀ (st : SqlToMirConverter) (name : String) (sqs : List MirQuery)
      (op : CompoundSelectOperator) (order : Option OrderClause)
      (limit : Option LimitClause) (hl : Bool) (q : MirQuery)
      (st' : SqlToMirConverter),
      compound_query_to_mir st name sqs op order limit hl = some (q, st') →
      ∀ k v', st.nodes k = some v' → st'.nodes k = some v') ∧
    (∀ (st : SqlToMirConverter) (prior : MirNode) (name : String)
      (params : List Column) (pc : Option (List Column)),
      (add_leaf_below st prior name params pc).2.nodes (name, st.schema_version) =
        some (add_leaf_below st prior name params pc).1.leaf) :=
  ⟨fun st name query tx q st' h hpres =>
      named_base_to_mir_noop st name query tx q st' h hpres,
   fun st ns hall => named_query_register_nodes_noop ns st hall,
   fun st name sqs op order limit hl q st' h k v' hk =>
      compound_query_to_mir_preserves st name sqs op order limit hl q st' h k v' hk,
   fun st prior name params pc => add_leaf_below_registers st prior name params pc⟩

/-- C1 counterexample: cState already stores a Base node at the key
("v", 0), which is ("v", current schema version); a second registration
through add_leaf_below replaces that entry with the newly built Leaf, so
the nodes map is changed, not left alone. -/
theorem add_leaf_below_overwrite_cx :
    cState.schema_version = 0 ∧
    (cState.nodes ("v", 0)).isSome = true ∧
    (add_leaf_below cState baseT "v" [] none).2.nodes ("v", 0) ≠
      cState.nodes ("v", 0) :=
  ⟨rfl, rfl, fun h =>
    absurd (congrArg (fun o => o.map MirNode.tag) h) (by decide)⟩

theorem registration_idempotence_witness :
    wNBst.nodes = cState.nodes ∧
    named_query_register_nodes cState [baseT] = cState ∧
    wCqSt.nodes ("v", 0) = some baseT ∧
    (add_leaf_below cState baseT "v" [] none).2.nodes ("v", 0) =
      some (add_leaf_below cState baseT "v" [] none).1.leaf :=
  ⟨registration_idempotence.1 cState "t" wCreate false wNBq wNBst rfl rfl,
   registration_idempotence.2.1 cState [baseT]
     (by
       intro mn hmn
       rw [List.mem_singleton] at hmn
       subst hmn
       decide),
   registration_idempotence.2.2.1 cState "cq" [wMq1, wMq2] .Union none none false
     wCq wCqSt rfl ("v", 0) baseT rfl,
   registration_idempotence.2.2.2 cState baseT "v" [] none⟩

theorem removeFirstBy_length {α : Type} (eq : α → α → Bool) (l : List α) (x : α)
    (l' : List α) (h : removeFirstBy eq l x = some l') : l'.length + 1 = l.length := by
  unfold removeFirstBy at h
  rcases hidx : l.findIdx? (fun cc => eq cc x) with _ | pos <;> rw [hidx] at h
  · exact Option.noConfusion h
  · have h' := Option.some.inj h
    subst h'
    have hpos : pos < l.length :=
      (List.findIdx?_eq_some_iff_findIdx_eq.mp hidx).1
    exact List.length_eraseIdx_add_one hpos

theorem removeAllBy_length {α : Type} (eq : α → α → Bool) :
    ∀ (rs l l' : List α), removeAllBy eq l rs = some l' →
      l'.length + rs.length = l.length := by
  intro rs
  induction rs with
  | nil =>
    intro l l' h
    have h' := Option.some.inj h
    subst h'
    simp
  | cons x xs ih =>
    intro l l' h
    unfold removeAllBy at h
    rcases hrf : removeFirstBy eq l x with _ | l1 <;> rw [hrf] at h
    · exact Option.noConfusion h
    · have h2 : removeAllBy eq l1 xs = some l' := h
      have e1 := ih l1 l' h2
      have e2 := removeFirstBy_length eq l x l1 hrf
      simp only [List.length_cons]
      omega

/-- C3: when the newest recorded schema for a known base name differs from
the requested columns with at least one unchanged column and a non-empty
set of added or removed columns, make_base_node returns the adapted Base:
its column list is the prior base's column list with the added columns
appended and each removed column deleted at the position of its first
occurrence, its column count satisfies final + |removed| = prior + |added|,
adapted_over records {prior, added, removed}, and the new schema is pushed
onto base_schemas[name] under the current schema version. -/
theorem make_base_node_adapts (st : SqlToMirConverter) (name : String)
    (cols : List ColumnSpecification) (keys : Option (List TableKey)) (tx : Bool)
    (bs : List (Nat × List ColumnSpecification)) (existing_sv : Nat)
    (schema : List ColumnSpecification) (tl : List (Nat × List ColumnSpecification))
    (added removed : List ColumnSpecification) (prior : MirNode)
    (specsPairs : List (ColumnSpecification × Option Nat)) (keys0 : List Column)
    (tx0 : Bool)
    (ao0 : Option (MirNode × List ColumnSpecification × List ColumnSpecification))
    (adaptedCols : List Column) (adaptedSpecs : List ColumnSpecification)
    (hbs : st.base_schemas name = some bs)
    (hsort : (sortBySv bs).reverse = (existing_sv, schema) :: tl)
    (hne : columnSpecListEq schema cols = false)
    (hadded : (cols.filter fun c => !(schema.any fun x => columnSpecEq x c)) = added)
    (hremoved : (schema.filter fun c => !(cols.any fun x => columnSpecEq x c)) = removed)
    (hunch : 0 < (cols.filter fun c => schema.any fun x => columnSpecEq x c).length)
    (hchg : 0 < added.length ∨ 0 < removed.length)
    (hnode : st.nodes (name, existing_sv) = some prior)
    (hinner : prior.inner = .Base specsPairs keys0 tx0 ao0)
    (hplen : prior.columns.length = specsPairs.length)
    (hrm : removeAllBy columnSpecEq (specsPairs.map Prod.fst ++ added) removed =
      some adaptedSpecs)
    (hrmCols : removeAllBy columnEq (prior.columns ++ added.map (·.column))
      (removed.map (·.column)) = some adaptedCols) :
    make_base_node st name cols keys tx =
      some (MirNode.mk prior.name prior.version adaptedCols
        (.Base (adaptedSpecs.map fun s => (s, none)) keys0 tx0
          (some (prior, added, removed))) [],
        { st with base_schemas := mapInsert st.base_schemas name (bs ++ [(st.schema_version, adaptedSpecs)]) }) ∧
    adaptedCols.length + removed.length = prior.columns.length + added.length := by
  have hcount : adaptedCols.length + removed.length =
      prior.columns.length + added.length := by
    have e := removeAllBy_length columnEq (removed.map (·.column))
      (prior.columns ++ added.map (·.column)) adaptedCols hrmCols
    simp only [List.length_map, List.length_append] at e
    omega
  refine ⟨?_, hcount⟩
  have hspecLen : adaptedSpecs.length + removed.length =
      specsPairs.length + added.length := by
    have e := removeAllBy_length columnSpecEq removed
      (specsPairs.map Prod.fst ++ added) adaptedSpecs hrm
    simp only [List.length_map, List.length_append] at e
    omega
  have hguardB : (decide ((cols.filter fun c =>
        schema.any fun x => columnSpecEq x c).length > 0) &&
      (decide (added.length > 0) || decide (removed.length > 0))) = true := by
    rcases hchg with h | h <;> simp [hunch, h]
  have hint : (adaptedSpecs.length : Int) =
      (prior.columns.length : Int) + (added.length : Int) - (removed.length : Int) := by
    omega
  simp [make_base_node, hbs, hsort, hne, hadded, hremoved, hguardB, hnode,
    MirNode.adapt_base, hinner, hrm, hrmCols, hint, MirNode.column_specifications]

theorem make_base_node_adapts_witness :
    make_base_node cState1 "t" [csA, csB, csC] none false =
      some (MirNode.mk "t" 0 [colA, colB, colC]
        (.Base [(csA, none), (csB, none), (csC, none)] [colA] false
          (some (baseT, [csC], []))) [],
        { cState1 with base_schemas := mapInsert cState1.base_schemas "t" [(0, [csA, csB]), (1, [csA, csB, csC])] }) ∧
    3 + 0 = 2 + 1 :=
  make_base_node_adapts cState1 "t" [csA, csB, csC] none false
    [(0, [csA, csB])] 0 [csA, csB] [] [csC] [] baseT
    [(csA, none), (csB, none)] [colA] false none
    [colA, colB, colC] [csA, csB, csC]
    rfl rfl rfl rfl rfl (by decide) (Or.inl (by decide)) rfl rfl rfl rfl rfl

theorem find?_name_isNone (acc : List Column) (nm : String) :
    (acc.find? fun d => nm == d.name).isNone =
      !((acc.map Column.name).contains nm) := by
  induction acc with
  | nil => rfl
  | cons a l ih =>
    simp only [List.find?_cons, List.map_cons, List.contains_cons]
    cases h : (nm == a.name) with
    | true => simp [h]
    | false => simp [h, ih]

theorem mem_selectFirstByName (sel : String → Bool) :
    ∀ (cols : List Column) (seen : List String) (nm : String),
      nm ∈ (selectFirstByName sel seen cols).map Column.name ↔
        sel nm = true ∧ nm ∈ cols.map Column.name ∧ seen.contains nm = false := by
  intro cols
  induction cols with
  | nil => intro seen nm; simp [selectFirstByName]
  | cons c cs ih =>
    intro seen nm
    unfold selectFirstByName
    by_cases hc : (sel c.name && !(seen.contains c.name)) = true
    · rw [if_pos hc]
      simp only [Bool.and_eq_true, Bool.not_eq_true'] at hc
      obtain ⟨hsel, hseen⟩ := hc
      simp only [List.map_cons, List.mem_cons]
      rw [ih (c.name :: seen) nm]
      simp only [List.contains_cons]
      constructor
      · rintro (rfl | ⟨h1, h2, h3⟩)
        · exact ⟨hsel, Or.inl rfl, hseen⟩
        · rcases Bool.or_eq_false_iff.mp h3 with ⟨-, h5⟩
          exact ⟨h1, Or.inr h2, h5⟩
      · rintro ⟨h1, (rfl | h2), h3⟩
        · exact Or.inl rfl
        · by_cases hEq : nm = c.name
          · exact Or.inl hEq
          · refine Or.inr ⟨h1, h2, ?_⟩
            have h3' : nm ∉ seen := by simpa using h3
            simp [hEq, h3']
    · rw [if_neg hc]
      rw [ih seen nm]
      simp only [List.map_cons, List.mem_cons]
      constructor
      · rintro ⟨h1, h2, h3⟩
        exact ⟨h1, Or.inr h2, h3⟩
      · rintro ⟨h1, (rfl | h2), h3⟩
        · refine absurd ?_ hc
          have h3' : c.name ∉ seen := by simpa using h3
          simp [h1, h3']
        · exact ⟨h1, h2, h3⟩

theorem props_of_mem_selectFirstByName (sel : String → Bool) (cols : List Column)
    (seen : List String) (c : Column) (hc : c ∈ selectFirstByName sel seen cols) :
    sel c.name = true ∧ seen.contains c.name = false := by
  have h := (mem_selectFirstByName sel cols seen c.name).mp
    (List.mem_map_of_mem Column.name hc)
  exact ⟨h.1, h.2.2⟩

theorem nodup_selectFirstByName (sel : String → Bool) :
    ∀ (cols : List Column) (seen : List String),
      ((selectFirstByName sel seen cols).map Column.name).Nodup := by
  intro cols
  induction cols with
  | nil => intro seen; simp [selectFirstByName]
  | cons c cs ih =>
    intro seen
    unfold selectFirstByName
    by_cases hc : (sel c.name && !(seen.contains c.name)) = true
    · rw [if_pos hc]
      simp only [List.map_cons, List.nodup_cons]
      refine ⟨?_, ih (c.name :: seen)⟩
      intro hmem
      have h2 := (mem_selectFirstByName sel cs (c.name :: seen) c.name).mp hmem
      simp [List.contains_cons] at h2
    · rw [if_neg hc]
      exact ih seen

theorem selectFirstByName_sublist (sel : String → Bool) :
    ∀ (cols : List Column) (seen : List String),
      (selectFirstByName sel seen cols).Sublist cols := by
  intro cols
  induction cols with
  | nil => intro seen; simp [selectFirstByName]
  | cons c cs ih =>
    intro seen
    unfold selectFirstByName
    by_cases hc : (sel c.name && !(seen.contains c.name)) = true
    · rw [if_pos hc]
      exact (ih (c.name :: seen)).cons₂ c
    · rw [if_neg hc]
      exact (ih seen).cons c

theorem selectFirstByName_find? (sel : String → Bool) :
    ∀ (cols : List Column) (seen : List String) (c : Column),
      c ∈ selectFirstByName sel seen cols →
      cols.find? (fun d => d.name == c.name) = some c := by
  intro cols
  induction cols with
  | nil => intro seen c hc; simp [selectFirstByName] at hc
  | cons c0 cs ih =>
    intro seen c hc
    unfold selectFirstByName at hc
    by_cases h0 : (sel c0.name && !(seen.contains c0.name)) = true
    · rw [if_pos h0] at hc
      rcases List.mem_cons.mp hc with rfl | hc'
      · exact List.find?_cons_of_pos _ (by simp)
      · obtain ⟨-, hcon⟩ := props_of_mem_selectFirstByName sel cs (c0.name :: seen)
          c hc'
        have hne : ¬((fun d => d.name == c.name) c0 = true) := by
          simp only [List.contains_cons, Bool.or_eq_false_iff] at hcon
          simp only [beq_iff_eq]
          intro hEq
          rw [← hEq] at hcon
          simp at hcon
        rw [List.find?_cons_of_neg (p := fun d : Column => d.name == c.name) _ hne]
        exact ih (c0.name :: seen) c hc'
    · rw [if_neg h0] at hc
      obtain ⟨hsel, hcon⟩ := props_of_mem_selectFirstByName sel cs seen c hc
      have hne : ¬((fun d => d.name == c.name) c0 = true) := by
        simp only [beq_iff_eq]
        intro hEq
        apply h0
        rw [hEq]
        have hcon' : c.name ∉ seen := by simpa using hcon
        simp [hsel, hcon']
      rw [List.find?_cons_of_neg (p := fun d : Column => d.name == c.name) _ hne]
      exact ih seen c hc

theorem selectFirstByName_length (sel : String → Bool) (cols base : List Column)
    (hsub : ∀ nm, sel nm = true → nm ∈ cols.map Column.name)
    (hbase : ∀ nm, sel nm = true → nm ∈ base.map Column.name) :
    (selectFirstByName sel [] cols).length =
      ((base.map Column.name).dedup.filter sel).length := by
  have h1 : ((selectFirstByName sel [] cols).map Column.name).Nodup :=
    nodup_selectFirstByName sel cols []
  have h2 : ((base.map Column.name).dedup.filter sel).Nodup :=
    (List.nodup_dedup _).filter _
  have hperm : List.Perm ((selectFirstByName sel [] cols).map Column.name)
      ((base.map Column.name).dedup.filter sel) := by
    rw [List.perm_ext_iff_of_nodup h1 h2]
    intro nm
    rw [mem_selectFirstByName]
    simp only [List.mem_filter, List.mem_dedup, List.contains_nil]
    constructor
    · rintro ⟨hs, hm, -⟩
      exact ⟨hbase nm hs, hs⟩
    · rintro ⟨hm, hs⟩
      exact ⟨hs, hsub nm hs, by simp⟩
  have hlen := hperm.length_eq
  simpa using hlen

theorem unionAncestorCols_foldl (sel : String → Bool) :
    ∀ (cols acc : List Column) (seen : List String),
      (∀ nm, seen.contains nm = (acc.map Column.name).contains nm) →
      List.foldl
        (fun acols ac =>
          if sel ac.name && (acols.find? fun c => ac.name == c.name).isNone
          then acols ++ [ac] else acols) acc cols
        = acc ++ selectFirstByName sel seen cols := by
  intro cols
  induction cols with
  | nil => intro acc seen h; simp [selectFirstByName]
  | cons c cs ih =>
    intro acc seen h
    simp only [List.foldl_cons]
    unfold selectFirstByName
    have hfind : (acc.find? fun d => c.name == d.name).isNone =
        !(seen.contains c.name) := by
      rw [find?_name_isNone, h]
    by_cases hc : (sel c.name && !(seen.contains c.name)) = true
    · have hcond : (sel c.name && (acc.find? fun d => c.name == d.name).isNone)
          = true := by
        rw [hfind]
        exact hc
      rw [if_pos hcond, if_pos hc]
      rw [ih (acc ++ [c]) (c.name :: seen) ?inv]
      · simp
      case inv =>
        intro nm
        have h' := h nm
        simp at h'
        simp [List.contains_cons, List.contains_eq_any_beq, List.any_append, h']
        exact Bool.or_comm _ _
    · have hc' : (sel c.name && !(seen.contains c.name)) = false := by
        cases hb : (sel c.name && !(seen.contains c.name)) with
        | true => exact absurd hb hc
        | false => rfl
      have hcond : (sel c.name && (acc.find? fun d => c.name == d.name).isNone)
          = false := by
        rw [hfind]
        exact hc'
      rw [if_neg (by rw [hcond]; simp), if_neg hc]
      exact ih acc seen h

theorem unionAncestorCols_eq (sel : String → Bool) (cols : List Column) :
    unionAncestorCols sel cols = selectFirstByName sel [] cols := by
  unfold unionAncestorCols
  have h := unionAncestorCols_foldl sel cols [] [] (fun nm => rfl)
  simpa using h

/-- C10: make_union_node over at least two ancestors succeeds (silently
dropping columns not common to all ancestors rather than failing) and
returns a Union node whose output columns are the first ancestor's emit
list; a name is selected exactly when it occurs in the first ancestor's
column list and in every ancestor's column list; each ancestor's emit
list has length equal to the number of distinct selected names and
contains, as a subsequence of that ancestor's columns with pairwise
distinct names, its first column of each selected name and nothing
else. -/
theorem make_union_node_spec (v : Nat) (name : String) (a0 a1 : MirNode)
    (rest : List MirNode) :
    (make_union_node v name (a0 :: a1 :: rest) =
      some (MirNode.mk name v
        (unionAncestorCols (unionSelected (a0 :: a1 :: rest) a0.columns) a0.columns)
        (.Union ((a0 :: a1 :: rest).map fun a =>
          unionAncestorCols (unionSelected (a0 :: a1 :: rest) a0.columns) a.columns))
        (a0 :: a1 :: rest))) ∧
    (∀ nm, unionSelected (a0 :: a1 :: rest) a0.columns nm = true ↔
      (nm ∈ a0.columns.map Column.name ∧
        ∀ a ∈ a0 :: a1 :: rest, nm ∈ a.columns.map Column.name)) ∧
    (∀ a ∈ a0 :: a1 :: rest,
      (unionAncestorCols (unionSelected (a0 :: a1 :: rest) a0.columns)
        a.columns).length = unionSelectedCount (a0 :: a1 :: rest) a0.columns) ∧
    (∀ a ∈ a0 :: a1 :: rest,
      ∀ c ∈ unionAncestorCols (unionSelected (a0 :: a1 :: rest) a0.columns)
          a.columns,
        unionSelected (a0 :: a1 :: rest) a0.columns c.name = true ∧
        a.columns.find? (fun d => d.name == c.name) = some c) ∧
    (∀ a ∈ a0 :: a1 :: rest,
      (unionAncestorCols (unionSelected (a0 :: a1 :: rest) a0.columns)
        a.columns).Sublist a.columns ∧
      ((unionAncestorCols (unionSelected (a0 :: a1 :: rest) a0.columns)
        a.columns).map Column.name).Nodup ∧
      ∀ c ∈ a.columns,
        unionSelected (a0 :: a1 :: rest) a0.columns c.name = true →
        c.name ∈ (unionAncestorCols (unionSelected (a0 :: a1 :: rest) a0.columns)
          a.columns).map Column.name) := by
  have selIff : ∀ nm, (unionSelected (a0 :: a1 :: rest) a0.columns nm = true) ↔
      (nm ∈ a0.columns.map Column.name ∧
        ∀ a ∈ a0 :: a1 :: rest, nm ∈ a.columns.map Column.name) := by
    intro nm
    unfold unionSelected
    simp only [Bool.and_eq_true, List.any_eq_true, List.all_eq_true, beq_iff_eq,
      List.mem_map]
  have hlen : ∀ a ∈ a0 :: a1 :: rest,
      (unionAncestorCols (unionSelected (a0 :: a1 :: rest) a0.columns)
        a.columns).length = unionSelectedCount (a0 :: a1 :: rest) a0.columns := by
    intro a ha
    rw [unionAncestorCols_eq]
    unfold unionSelectedCount
    apply selectFirstByName_length
    · intro nm hs
      exact ((selIff nm).mp hs).2 a ha
    · intro nm hs
      exact ((selIff nm).mp hs).1
  refine ⟨?_, selIff, hlen, ?_, ?_⟩
  · have hlen2 : (a0 :: a1 :: rest).length > 1 := by
      simp
    have hguard : (((a0 :: a1 :: rest).map fun a =>
        unionAncestorCols (unionSelected (a0 :: a1 :: rest) a0.columns)
          a.columns).all fun e =>
        e.length == unionSelectedCount (a0 :: a1 :: rest) a0.columns) = true := by
      rw [List.all_eq_true]
      intro e he
      rw [List.mem_map] at he
      obtain ⟨a, ha, rfl⟩ := he
      rw [beq_iff_eq]
      exact hlen a ha
    simp only [make_union_node]
    rw [if_pos hlen2, if_pos hguard]
    rfl
  · intro a ha c hc
    rw [unionAncestorCols_eq] at hc
    refine ⟨(props_of_mem_selectFirstByName _ _ _ _ hc).1, ?_⟩
    exact selectFirstByName_find? _ _ _ _ hc
  · intro a ha
    rw [unionAncestorCols_eq]
    refine ⟨selectFirstByName_sublist _ _ _, nodup_selectFirstByName _ _ _, ?_⟩
    intro c hc hs
    rw [mem_selectFirstByName]
    exact ⟨hs, List.mem_map_of_mem Column.name hc, rfl⟩

theorem make_union_node_spec_witness :
    make_union_node 0 "u" [baseT, baseS] =
      some (MirNode.mk "u" 0
        (unionAncestorCols (unionSelected [baseT, baseS] baseT.columns)
          baseT.columns)
        (.Union ([baseT, baseS].map fun a =>
          unionAncestorCols (unionSelected [baseT, baseS] baseT.columns) a.columns))
        [baseT, baseS]) ∧
    (unionAncestorCols (unionSelected [baseT, baseS] baseT.columns)
      baseS.columns).length = unionSelectedCount [baseT, baseS] baseT.columns :=
  ⟨(make_union_node_spec 0 "u" baseT baseS []).1,
   (make_union_node_spec 0 "u" baseT baseS []).2.2.1 baseS (by simp)⟩

end NoriaMir
